import Mathlib

/-!
Verification of the sqlite-vec vector-search engine design against its
natural-language specification.

The repository fragment under version control contains only the Rust build
script `src/bindings/rust/build.rs`; the core engine (chunked vector store,
quantization engine, mutation manager and KNN executor) is specified but its
code is not part of the fragment.  The engine definitions below are therefore
modelled from the specification text, while `buildMain` is a direct shallow
embedding of `build.rs`.

Vector components are modelled as rationals (the spec's numeric components),
machine floats being out of scope for exact reasoning; distances under the
cosine metric live in the real numbers because of the square roots involved.
-/

namespace SV

/-! ## Distance and quantization engine (spec section 4.1 and section 3) -/

/-- Modelled from the spec: raw encoding stores each component verbatim
(single-precision components are modelled as exact rationals). -/
def encodeRaw (v : List ℚ) : List ℚ := v

/-- Modelled from the spec: decoding of a raw-encoded vector, the identity. -/
def decodeRaw (v : List ℚ) : List ℚ := v

/-- Modelled from the spec: int8 quantization clamps values to [-127, 127]. -/
def clampInt8 (z : ℤ) : ℤ := max (-127) (min 127 z)

/-- Modelled from the spec: int8 quantization,
value = round((x - offset) / scale) clamped to [-127, 127]. -/
def encodeInt8 (scale offset : ℚ) (v : List ℚ) : List ℤ :=
  v.map (fun x => clampInt8 (round ((x - offset) / scale)))

/-- Modelled from the spec: int8 decoding, component = value * scale + offset. -/
def decodeInt8 (scale offset : ℚ) (q : List ℤ) : List ℚ :=
  q.map (fun z : ℤ => (z : ℚ) * scale + offset)

/-- Modelled from the spec: 1-bit binary quantization, a sign bit per
component (`true` for nonnegative). -/
def encodeBit (v : List ℚ) : List Bool := v.map (fun x => decide (0 ≤ x))

/-- Modelled from the spec: binary decoding, a sign bit becomes plus or minus one. -/
def decodeBit (bs : List Bool) : List ℚ := bs.map (fun b => if b then 1 else -1)

/-- Modelled from the spec: the distance metrics available to a table
(cosine is treated separately because its value is real-valued). -/
inductive Metric where
  | l2
  | l1
  | hamming
deriving DecidableEq

/-- Modelled from the spec: `distance(metric, a, b)` for the rational-valued
metrics: squared L2, L1, and Hamming (count of differing components). -/
def distQ : Metric → List ℚ → List ℚ → ℚ
  | Metric.l2, a, b => (List.zipWith (fun x y => (x - y) * (x - y)) a b).sum
  | Metric.l1, a, b => (List.zipWith (fun x y => |x - y|) a b).sum
  | Metric.hamming, a, b => (List.zipWith (fun x y => if x = y then (0 : ℚ) else 1) a b).sum

/-- Modelled from the spec: error kinds of section 7. -/
inductive Err where
  | schemaError
  | dimensionMismatch
  | degenerateVector
  | invalidArgument
  | storageExhausted
deriving DecidableEq

/-- Modelled from the spec: sum of squared components, the square of the
Euclidean norm. -/
def sumSq (v : List ℚ) : ℚ := (v.map (fun x => x * x)).sum

/-- Modelled from the spec: dot product of two vectors. -/
def dot (a b : List ℚ) : ℚ := (List.zipWith (fun x y => x * y) a b).sum

/-- Modelled from the spec: the Euclidean norm of a vector, as a real. -/
noncomputable def normQ (a : List ℚ) : ℝ := Real.sqrt ((sumSq a : ℚ) : ℝ)

/-- Modelled from the spec: cosine distance `1 - (a.b)/(|a| |b|)`, failing
with the degenerate-vector error when either norm is zero. -/
noncomputable def cosineDistance (a b : List ℚ) : Except Err ℝ :=
  if sumSq a = 0 ∨ sumSq b = 0 then Except.error Err.degenerateVector
  else Except.ok (1 - ((dot a b : ℚ) : ℝ) / (normQ a * normQ b))

/-- Modelled from the spec: the Scanning phase applied to a fallible distance
function: a failed comparison is dropped from the candidate stream (reported
as an undefined distance) and the rest of the scan continues. -/
def scanCands (f : List ℚ → Except Err ℝ) (rows : List (ℤ × List ℚ)) : List (ℤ × ℝ) :=
  rows.filterMap (fun p => ((f p.2).toOption).map (fun d => (p.1, d)))

/-! ## Chunked vector store and table state (spec sections 3, 4.2-4.4) -/

/-- Modelled from the spec: a table's per-column element encoding, fixed at
creation. -/
inductive Encoding where
  | raw
  | int8 (scale offset : ℚ)
  | bit
deriving DecidableEq

/-- Modelled from the spec: an encoded vector as stored inside a chunk. -/
inductive EncVec where
  | raw (v : List ℚ)
  | int8 (scale offset : ℚ) (q : List ℤ)
  | bit (b : List Bool)
deriving DecidableEq

/-- Modelled from the spec: `encode(raw_vector, encoding)`. -/
def encodeVec : Encoding → List ℚ → EncVec
  | Encoding.raw, v => EncVec.raw (encodeRaw v)
  | Encoding.int8 s o, v => EncVec.int8 s o (encodeInt8 s o v)
  | Encoding.bit, v => EncVec.bit (encodeBit v)

/-- Modelled from the spec: `decode(encoded)`. -/
def decodeEnc : EncVec → List ℚ
  | EncVec.raw v => decodeRaw v
  | EncVec.int8 s o q => decodeInt8 s o q
  | EncVec.bit b => decodeBit b

/-- Modelled from the spec: one chunk slot: a row identifier, the validity
bit, the encoded vector and the opaque auxiliary payload. -/
structure Slot where
  rowId : ℤ
  valid : Bool
  vec : EncVec
  aux : String
deriving DecidableEq

/-- Modelled from the spec: a chunk is an ordered sequence of slots with
per-slot validity; deleted slots keep their storage until compaction. -/
structure Chunk where
  slots : List Slot
deriving DecidableEq

/-- Modelled from the spec: `compact(chunk_id)` repacks live slots to the
front and drops the storage of deleted slots. -/
def compactChunk (c : Chunk) : Chunk := ⟨c.slots.filter (fun s => s.valid)⟩

/-- Modelled from the spec: the live (row_id, vector, aux) tuples of a chunk,
in slot order. -/
def liveTuplesC (c : Chunk) : List (ℤ × EncVec × String) :=
  (c.slots.filter (fun s => s.valid)).map (fun s => (s.rowId, s.vec, s.aux))

/-- Modelled from the spec: a vector table: fixed dimension and encoding,
declared metric, chunk capacity, and the list of allocated chunks. -/
structure Table where
  dim : ℕ
  cap : ℕ
  metric : Metric
  enc : Encoding
  chunks : List Chunk
deriving DecidableEq

/-- Modelled from the spec: all live slots of a table, chunk by chunk. -/
def liveSlots (t : Table) : List Slot :=
  (t.chunks.map (fun c => c.slots.filter (fun s => s.valid))).flatten

/-- Modelled from the spec: row identifiers of the live rows. -/
def liveRowIds (t : Table) : List ℤ := (liveSlots t).map (fun s => s.rowId)

/-- Modelled from the spec: number of live rows of a table. -/
def rowCount (t : Table) : ℕ := (liveSlots t).length

/-- Modelled from the spec: number of live slots holding a given row
identifier (one in a consistent table). -/
def countLive (t : Table) (r : ℤ) : ℕ :=
  (liveSlots t).countP (fun s => s.rowId == r)

/-- Modelled from the spec: insert places the new slot in the first chunk
with a free slot, allocating a fresh chunk when none has room. -/
def insertChunks (cap : ℕ) (s : Slot) : List Chunk → List Chunk
  | [] => [⟨[s]⟩]
  | c :: cs =>
    if c.slots.length < cap then ⟨c.slots ++ [s]⟩ :: cs
    else c :: insertChunks cap s cs

/-- Modelled from the spec: `insert(row_id, vector, aux)`: the row shape is
validated first (`DimensionMismatchError` when the vector length differs from
the table dimension), then the encoded vector is written into a chunk. -/
def insertRow (t : Table) (r : ℤ) (v : List ℚ) (aux : String) : Except Err Table :=
  if v.length = t.dim then
    Except.ok { t with chunks := insertChunks t.cap ⟨r, true, encodeVec t.enc v, aux⟩ t.chunks }
  else Except.error Err.dimensionMismatch

/-- Modelled from the spec: the state transition of a single insert as the
host observes it: a failed insert surfaces the error and leaves the table
untouched. -/
def applyInsert (t : Table) (r : ℤ) (v : List ℚ) (aux : String) : Table :=
  match insertRow t r v aux with
  | Except.ok t2 => t2
  | Except.error _ => t

/-- Modelled from the spec: `delete(row_id)` clears the validity bit of the
row's slots; physical storage is reclaimed only by compaction. -/
def deleteRow (t : Table) (r : ℤ) : Table :=
  { t with
    chunks := t.chunks.map (fun c =>
      ⟨c.slots.map (fun s => if s.rowId = r then { s with valid := false } else s)⟩) }

/-! ## KNN query executor (spec section 4.5) -/

/-- Modelled from the spec: ranking order on scored candidates: ascending by
distance, ties broken by the lower row identifier. -/
def distLe (a b : ℚ × ℤ) : Prop := a.1 < b.1 ∨ (a.1 = b.1 ∧ a.2 ≤ b.2)

/-- Modelled from the spec: the strict ranking order on scored candidates. -/
def distLt (a b : ℚ × ℤ) : Prop := a.1 < b.1 ∨ (a.1 = b.1 ∧ a.2 < b.2)

instance : DecidableRel distLe := fun a b =>
  inferInstanceAs (Decidable (a.1 < b.1 ∨ (a.1 = b.1 ∧ a.2 ≤ b.2)))

instance : DecidableRel distLt := fun a b =>
  inferInstanceAs (Decidable (a.1 < b.1 ∨ (a.1 = b.1 ∧ a.2 < b.2)))

/-- Modelled from the spec: one Ranking step of the bounded top-k structure:
the candidate is placed by rank and the structure is truncated back to k
entries (the heap is represented as its sorted list of entries, whose last
element is the heap maximum). -/
def knnStep (k : ℕ) (h : List (ℚ × ℤ)) (c : ℚ × ℤ) : List (ℚ × ℤ) :=
  (List.orderedInsert distLe c h).take k

/-- Modelled from the spec: the Ranking phase: fold every scanned candidate
through the bounded top-k structure, starting from an empty heap. -/
def topKFold (k : ℕ) (l : List (ℚ × ℤ)) : List (ℚ × ℤ) :=
  l.foldl (knnStep k) []

/-- Modelled from the spec: the heap maximum of the (sorted) bounded top-k
structure. -/
def heapMax (h : List (ℚ × ℤ)) : Option (ℚ × ℤ) := h.getLast?

/-- Modelled from the spec: Planning resolves k, which must be at least one,
failing with `InvalidArgumentError` otherwise. -/
def resolveK (k : ℤ) : Except Err ℕ :=
  if k < 1 then Except.error Err.invalidArgument else Except.ok k.toNat

/-- Modelled from the spec: the Scanning phase over a full table: every live
row is decoded and scored against the query vector. -/
def liveEntries (t : Table) (q : List ℚ) : List (ℚ × ℤ) :=
  (liveSlots t).map (fun s => (distQ t.metric q (decodeEnc s.vec), s.rowId))

/-- Modelled from the spec: the KNN query executor
(Planning, Scanning, Ranking, Done), emitting (row_id, distance) pairs
sorted ascending by (distance, row_id). -/
def knnQuery (t : Table) (q : List ℚ) (k : ℤ) : Except Err (List (ℤ × ℚ)) :=
  match resolveK k with
  | Except.error e => Except.error e
  | Except.ok kk =>
    if q.length = t.dim then
      Except.ok ((topKFold kk (liveEntries t q)).map (fun e => (e.2, e.1)))
    else Except.error Err.dimensionMismatch

/-! ## The build script (shallow embedding of src/bindings/rust/build.rs) -/

/-- The compiler invocation assembled by the build script: the C source
files, the include directories, and the produced library name. -/
structure CcBuild where
  files : List String
  includes : List String
  libName : String
deriving DecidableEq

/-- Path join for a relative right-hand component, as PathBuf does. -/
def pathJoin (a b : String) : String := a ++ ("/") ++ b

/-- Shallow embedding of `build.rs`: reading the CARGO_MANIFEST_DIR
environment variable (`none` models the panic of `unwrap` on an unset
variable), then the cc invocation on `root/sqlite-vec.c` with include
directories `root` and `root/vendor`, where root is the manifest directory
joined with the relative path up two levels. -/
def buildMain (env : String → Option String) : Option CcBuild :=
  match env ("CARGO_MANIFEST_DIR") with
  | none => none
  | some p =>
    some
      { files := [pathJoin (pathJoin p ("../..")) ("sqlite-vec.c")]
        includes := [pathJoin p ("../.."), pathJoin (pathJoin p ("../..")) ("vendor")]
        libName := ("sqlite_vec0") }

/-! ## Order properties of the ranking relation -/

theorem distLe_refl (a : ℚ × ℤ) : distLe a a := Or.inr ⟨rfl, le_refl _⟩

theorem distLe_trans : ∀ {a b c : ℚ × ℤ}, distLe a b → distLe b c → distLe a c := by
  intro a b c hab hbc
  rcases hab with h1 | ⟨e1, l1⟩
  · rcases hbc with h2 | ⟨e2, _⟩
    · exact Or.inl (h1.trans h2)
    · exact Or.inl (e2 ▸ h1)
  · rcases hbc with h2 | ⟨e2, l2⟩
    · exact Or.inl (e1 ▸ h2)
    · exact Or.inr ⟨e1.trans e2, l1.trans l2⟩

theorem distLe_total (a b : ℚ × ℤ) : distLe a b ∨ distLe b a := by
  rcases lt_trichotomy a.1 b.1 with h | h | h
  · exact Or.inl (Or.inl h)
  · rcases le_total a.2 b.2 with h2 | h2
    · exact Or.inl (Or.inr ⟨h, h2⟩)
    · exact Or.inr (Or.inr ⟨h.symm, h2⟩)
  · exact Or.inr (Or.inl h)

theorem distLe_antisymm : ∀ {a b : ℚ × ℤ}, distLe a b → distLe b a → a = b := by
  intro a b hab hba
  rcases hab with h1 | ⟨e1, l1⟩
  · rcases hba with h2 | ⟨e2, l2⟩
    · exact absurd (h1.trans h2) (lt_irrefl _)
    · exact absurd h1 (by rw [e2]; exact lt_irrefl _)
  · rcases hba with h2 | ⟨e2, l2⟩
    · exact absurd h2 (by rw [e1]; exact lt_irrefl _)
    · exact Prod.ext e1 (le_antisymm l1 l2)

instance : IsTrans (ℚ × ℤ) distLe := ⟨fun _ _ _ => distLe_trans⟩

instance : IsTotal (ℚ × ℤ) distLe := ⟨distLe_total⟩

instance : IsAntisymm (ℚ × ℤ) distLe := ⟨fun _ _ => distLe_antisymm⟩

theorem distLt_of_distLe_of_ne {a b : ℚ × ℤ} (h : distLe a b) (hne : a ≠ b) : distLt a b := by
  rcases h with h1 | ⟨e1, l1⟩
  · exact Or.inl h1
  · refine Or.inr ⟨e1, lt_of_le_of_ne l1 (fun h2 => hne ?_)⟩
    obtain ⟨a1, a2⟩ := a
    obtain ⟨b1, b2⟩ := b
    simp_all

theorem distLe_of_distLt {a b : ℚ × ℤ} (h : distLt a b) : distLe a b := by
  rcases h with h1 | ⟨e1, l1⟩
  · exact Or.inl h1
  · exact Or.inr ⟨e1, le_of_lt l1⟩

theorem distLt_of_distLe_of_distLe_of_ne {a b m : ℚ × ℤ} (hab : distLe a b)
    (hbm : distLe b m) (hne : a ≠ m) : distLt a m :=
  distLt_of_distLe_of_ne (distLe_trans hab hbm) hne

/-! ## The bounded top-k fold computes the k smallest candidates -/

theorem take_orderedInsert_take (c : ℚ × ℤ) :
    ∀ (s : List (ℚ × ℤ)) (k : ℕ),
      (List.orderedInsert distLe c (s.take k)).take k
        = (List.orderedInsert distLe c s).take k := by
  intro s
  induction s with
  | nil => intro k; simp
  | cons a t ih =>
    intro k
    cases k with
    | zero => simp
    | succ m =>
      by_cases hca : distLe c a
      · simp only [List.take_succ_cons, List.orderedInsert, if_pos hca]
        cases m with
        | zero => simp
        | succ n =>
          simp only [List.take_succ_cons, List.take_take]
          have hmin : min n (n + 1) = n := by omega
          rw [hmin]
      · simp only [List.take_succ_cons, List.orderedInsert, if_neg hca]
        rw [ih m]

theorem insertionSort_perm_eq {l₁ l₂ : List (ℚ × ℤ)} (hp : l₁.Perm l₂) :
    l₁.insertionSort distLe = l₂.insertionSort distLe :=
  List.eq_of_perm_of_sorted
    ((List.perm_insertionSort distLe l₁).trans (hp.trans (List.perm_insertionSort distLe l₂).symm))
    (List.sorted_insertionSort distLe l₁) (List.sorted_insertionSort distLe l₂)

theorem foldl_knnStep_sort (k : ℕ) :
    ∀ (l p : List (ℚ × ℤ)),
      List.foldl (knnStep k) ((p.insertionSort distLe).take k) l
        = ((p ++ l).insertionSort distLe).take k := by
  intro l
  induction l with
  | nil => intro p; simp
  | cons c l ih =>
    intro p
    have hstep : knnStep k ((p.insertionSort distLe).take k) c
        = (((p ++ [c]).insertionSort distLe)).take k := by
      have h1 : knnStep k ((p.insertionSort distLe).take k) c
          = (List.orderedInsert distLe c (p.insertionSort distLe)).take k :=
        take_orderedInsert_take c (p.insertionSort distLe) k
      have h2 : List.orderedInsert distLe c (p.insertionSort distLe)
          = (c :: p).insertionSort distLe := rfl
      have h3 : ((c :: p).insertionSort distLe) = ((p ++ [c]).insertionSort distLe) :=
        insertionSort_perm_eq (List.perm_append_singleton c p).symm
      rw [h1, h2, h3]
    calc List.foldl (knnStep k) ((p.insertionSort distLe).take k) (c :: l)
        = List.foldl (knnStep k) (((p ++ [c]).insertionSort distLe).take k) l := by
          rw [List.foldl_cons, hstep]
      _ = (((p ++ [c]) ++ l).insertionSort distLe).take k := ih (p ++ [c])
      _ = ((p ++ c :: l).insertionSort distLe).take k := by
          rw [List.append_assoc]
          rfl

theorem topKFold_eq_take_sort (k : ℕ) (l : List (ℚ × ℤ)) :
    topKFold k l = (l.insertionSort distLe).take k := by
  have h := foldl_knnStep_sort k l []
  simpa [topKFold] using h

theorem topKFold_perm (k : ℕ) {l₁ l₂ : List (ℚ × ℤ)} (hp : l₁.Perm l₂) :
    topKFold k l₁ = topKFold k l₂ := by
  rw [topKFold_eq_take_sort, topKFold_eq_take_sort, insertionSort_perm_eq hp]

/-! ## Admission into the bounded top-k structure -/

theorem mem_knnStep_iff :
    ∀ (h : List (ℚ × ℤ)) (k : ℕ) (c : ℚ × ℤ), List.Sorted distLe h → h.length ≤ k →
      c ∉ h → 0 < k →
      (c ∈ knnStep k h c ↔ h.length < k ∨ ∃ m, heapMax h = some m ∧ distLt c m) := by
  intro h
  induction h with
  | nil =>
    intro k c _ _ _ hk
    obtain ⟨k0, rfl⟩ := Nat.exists_eq_succ_of_ne_zero (Nat.pos_iff_ne_zero.mp hk)
    simp [knnStep, heapMax, List.orderedInsert]
  | cons b t ih =>
    intro k c hs hlen hc hk
    obtain ⟨k0, rfl⟩ := Nat.exists_eq_succ_of_ne_zero (Nat.pos_iff_ne_zero.mp hk)
    have hsb : ∀ x ∈ t, distLe b x := (List.sorted_cons.mp hs).1
    have hst : List.Sorted distLe t := (List.sorted_cons.mp hs).2
    have hcb2 : c ≠ b := fun he => hc (he ▸ List.mem_cons_self b t)
    have hct : c ∉ t := fun hm => hc (List.mem_cons_of_mem b hm)
    by_cases hcb : distLe c b
    · have hstep : knnStep (k0 + 1) (b :: t) c = c :: (b :: t).take k0 := by
        simp [knnStep, List.orderedInsert, hcb]
      have hmem : c ∈ knnStep (k0 + 1) (b :: t) c := by
        rw [hstep]; exact List.mem_cons_self _ _
      refine iff_of_true hmem ?_
      by_cases hlt : (b :: t).length < k0 + 1
      · exact Or.inl hlt
      · refine Or.inr ?_
        have hne : (b :: t) ≠ [] := List.cons_ne_nil b t
        refine ⟨(b :: t).getLast hne, List.getLast?_eq_getLast _ hne, ?_⟩
        have hmax : (b :: t).getLast hne ∈ b :: t := List.getLast_mem hne
        have hcm : c ≠ (b :: t).getLast hne := fun he => hc (he ▸ hmax)
        rcases List.mem_cons.mp hmax with he | hm
        · exact distLt_of_distLe_of_ne (by rw [he]; exact hcb) hcm
        · exact distLt_of_distLe_of_distLe_of_ne hcb (hsb _ hm) hcm
    · have hstep : knnStep (k0 + 1) (b :: t) c = b :: knnStep k0 t c := by
        simp [knnStep, List.orderedInsert, hcb]
      rw [hstep]
      have hmemiff : c ∈ b :: knnStep k0 t c ↔ c ∈ knnStep k0 t c := by
        simp [List.mem_cons, hcb2]
      rw [hmemiff]
      cases k0 with
      | zero =>
        have ht : t = [] := by
          have h1 := hlen
          simp only [List.length_cons] at h1
          exact List.eq_nil_of_length_eq_zero (by omega)
        subst ht
        have hL : c ∉ knnStep 0 ([] : List (ℚ × ℤ)) c := by simp [knnStep]
        refine iff_of_false hL ?_
        rintro (h1 | ⟨m, hm, hlt⟩)
        · simp at h1
        · simp only [heapMax, List.getLast?_singleton] at hm
          obtain rfl := Option.some.inj hm
          exact hcb (distLe_of_distLt hlt)
      | succ n =>
        have hlent : t.length ≤ n + 1 := by
          simp only [List.length_cons] at hlen; omega
        rw [ih (n + 1) c hst hlent hct (Nat.succ_pos n)]
        cases t with
        | nil =>
          refine iff_of_true (Or.inl (by simp)) (Or.inl ?_)
          simp only [List.length_cons, List.length_nil]
          omega
        | cons x t2 =>
          simp only [heapMax, List.getLast?_cons_cons, List.length_cons]
          constructor
          · rintro (h1 | h2)
            · exact Or.inl (by omega)
            · exact Or.inr h2
          · rintro (h1 | h2)
            · exact Or.inl (by omega)
            · exact Or.inr h2

/-! ## From sorted-with-distinct-rows to strictly sorted -/

theorem distLt_of_distLe_of_snd_ne {a b : ℚ × ℤ} (h : distLe a b) (hne : a.2 ≠ b.2) :
    distLt a b :=
  distLt_of_distLe_of_ne h (fun he => hne (he ▸ rfl))

theorem pairwise_distLt_of_sorted {l : List (ℚ × ℤ)} (hs : List.Sorted distLe l)
    (hne : l.Pairwise (fun a b => a.2 ≠ b.2)) : l.Pairwise distLt :=
  (hs.and hne).imp (fun hab => distLt_of_distLe_of_snd_ne hab.1 hab.2)

theorem liveEntries_pairwise_snd_ne {t : Table} (q : List ℚ)
    (h : (liveRowIds t).Nodup) :
    (liveEntries t q).Pairwise (fun a b => a.2 ≠ b.2) := by
  unfold liveEntries
  rw [List.pairwise_map]
  unfold liveRowIds at h
  unfold List.Nodup at h
  rw [List.pairwise_map] at h
  exact h

theorem knnQuery_ok {t : Table} {q : List ℚ} {k : ℤ} {res : List (ℤ × ℚ)}
    (h : knnQuery t q k = Except.ok res) :
    1 ≤ k ∧ q.length = t.dim ∧
      res = (topKFold k.toNat (liveEntries t q)).map (fun e => (e.2, e.1)) := by
  unfold knnQuery resolveK at h
  by_cases hk : k < 1
  · simp [hk] at h
  · by_cases hq : q.length = t.dim
    · simp [hk, hq] at h
      exact ⟨by omega, hq, h.symm⟩
    · simp [hk, hq] at h

/-! ## Counting live slots through delete and insert -/

theorem countP_live_delete (r : ℤ) (slots : List Slot) :
    ((slots.map (fun s => if s.rowId = r then { s with valid := false } else s)).filter
        (fun s => s.valid)).countP (fun s => s.rowId == r) = 0 := by
  induction slots with
  | nil => simp
  | cons s ss ih =>
    by_cases hr : s.rowId = r
    · simp only [List.map_cons, if_pos hr, List.filter_cons]
      simp [ih]
    · simp only [List.map_cons, if_neg hr, List.filter_cons]
      by_cases hv : s.valid
      · simp [hv, List.countP_cons, hr, ih]
      · simp [hv, ih]

theorem countLive_deleteRow (t : Table) (r : ℤ) : countLive (deleteRow t r) r = 0 := by
  unfold countLive liveSlots deleteRow
  simp only [List.map_map]
  generalize t.chunks = L
  induction L with
  | nil => simp
  | cons c cs ih =>
    simp only [List.map_cons, List.flatten_cons, List.countP_append, Function.comp]
    rw [countP_live_delete r c.slots, ih]

theorem countLive_insertChunks (cap : ℕ) (s : Slot) (r : ℤ) (hv : s.valid = true)
    (hr : s.rowId = r) (L : List Chunk) :
    (((insertChunks cap s L).map (fun c => c.slots.filter (fun s2 => s2.valid))).flatten).countP
        (fun s2 => s2.rowId == r)
      = ((L.map (fun c => c.slots.filter (fun s2 => s2.valid))).flatten).countP
          (fun s2 => s2.rowId == r) + 1 := by
  induction L with
  | nil => simp [insertChunks, hv, hr]
  | cons c cs ih =>
    by_cases hroom : c.slots.length < cap
    · simp only [insertChunks, if_pos hroom, List.map_cons, List.flatten_cons,
        List.countP_append, List.filter_append]
      have h1 : (List.filter (fun s2 => s2.valid) [s]).countP (fun s2 => s2.rowId == r) = 1 := by
        simp [hv, hr]
      rw [h1]
      omega
    · simp only [insertChunks, if_neg hroom, List.map_cons, List.flatten_cons,
        List.countP_append, ih]
      omega

theorem countLive_applyInsert (t : Table) (r : ℤ) (v : List ℚ) (aux : String)
    (hdim : v.length = t.dim) :
    countLive (applyInsert t r v aux) r = countLive t r + 1 := by
  unfold applyInsert insertRow
  simp only [if_pos hdim]
  unfold countLive liveSlots
  exact countLive_insertChunks t.cap _ r rfl rfl t.chunks

theorem dim_applyInsert (t : Table) (r : ℤ) (v : List ℚ) (aux : String) :
    (applyInsert t r v aux).dim = t.dim := by
  unfold applyInsert insertRow
  by_cases h : v.length = t.dim <;> simp [h]

theorem dim_deleteRow (t : Table) (r : ℤ) : (deleteRow t r).dim = t.dim := rfl

/-! ## The int8 per-component error bound -/

theorem clampInt8_eq_self {z : ℤ} (h1 : -127 ≤ z) (h2 : z ≤ 127) : clampInt8 z = z := by
  unfold clampInt8
  omega

theorem round_le_round {a b : ℚ} (h : a ≤ b) : round a ≤ round b := by
  rw [round_eq, round_eq]
  exact Int.floor_le_floor (by linarith)

theorem int8_component_bound {s o : ℚ} (x : ℚ) (hs : 0 < s) (hx : |x - o| ≤ 127 * s) :
    |((clampInt8 (round ((x - o) / s)) : ℤ) : ℚ) * s + o - x| ≤ s := by
  have hs0 : s ≠ 0 := ne_of_gt hs
  set t : ℚ := (x - o) / s with ht
  have htb : |t| ≤ 127 := by
    rw [ht, abs_div, abs_of_pos hs, div_le_iff₀ hs]
    linarith
  have h1 : (-127 : ℚ) ≤ t := neg_le_of_abs_le htb
  have h2 : t ≤ 127 := le_of_abs_le htb
  have h127 : round (127 : ℚ) = 127 := by
    rw [round_eq]
    norm_num [Int.floor_eq_iff]
  have hm127 : round (-127 : ℚ) = -127 := by
    rw [round_eq]
    norm_num [Int.floor_eq_iff]
  have hr2 : round t ≤ 127 := h127 ▸ round_le_round h2
  have hr1 : (-127 : ℤ) ≤ round t := hm127 ▸ round_le_round h1
  rw [clampInt8_eq_self hr1 hr2]
  have hts : t * s = x - o := div_mul_cancel₀ _ hs0
  have habs : ((round t : ℤ) : ℚ) * s + o - x = (((round t : ℤ) : ℚ) - t) * s := by
    rw [sub_mul, hts]
    ring
  rw [habs, abs_mul, abs_of_pos hs]
  have hq : |((round t : ℤ) : ℚ) - t| ≤ 1 / 2 := by
    have h3 := abs_sub_round t
    rwa [abs_sub_comm] at h3
  calc |((round t : ℤ) : ℚ) - t| * s ≤ 1 * s := by
        exact mul_le_mul_of_nonneg_right (hq.trans (by norm_num)) hs.le
    _ = s := one_mul s

/-! ## Cosine helpers -/

theorem sumSq_nonneg (v : List ℚ) : 0 ≤ sumSq v := by
  unfold sumSq
  refine List.sum_nonneg ?_
  intro x hx
  obtain ⟨y, _, rfl⟩ := List.mem_map.mp hx
  exact mul_self_nonneg y

theorem normQ_eq_zero_iff (v : List ℚ) : normQ v = 0 ↔ sumSq v = 0 := by
  unfold normQ
  rw [Real.sqrt_eq_zero']
  constructor
  · intro h
    have h2 : (sumSq v : ℝ) ≤ 0 := h
    have h3 : (0 : ℝ) ≤ (sumSq v : ℝ) := by exact_mod_cast sumSq_nonneg v
    exact_mod_cast le_antisymm h2 h3
  · intro h
    rw [h]
    simp

/-! ## Concrete tables for the end-to-end scenario -/

/-- The empty table of the end-to-end scenario: dimension 3, metric l2,
raw encoding. -/
def t0 : Table := ⟨3, 1024, Metric.l2, Encoding.raw, []⟩

/-- The scenario table after inserting rows (1,[0,0,0]), (2,[1,0,0]),
(3,[2,0,0]). -/
def t3 : Table :=
  applyInsert (applyInsert (applyInsert t0 1 [0, 0, 0] "") 2 [1, 0, 0] "") 3 [2, 0, 0] ""

theorem t3_query_eq : knnQuery t3 [0, 0, 0] 2 = Except.ok [(1, 0), (2, 1)] := by
  norm_num [t3, t0, knnQuery, resolveK, topKFold, knnStep, liveEntries, liveSlots,
    applyInsert, insertRow, insertChunks, deleteRow, encodeVec, encodeRaw, decodeEnc,
    decodeRaw, distQ, List.orderedInsert, distLe]
  decide

theorem t3_query_deleted_eq :
    knnQuery (deleteRow t3 1) [0, 0, 0] 2 = Except.ok [(2, 1), (3, 4)] := by
  norm_num [t3, t0, knnQuery, resolveK, topKFold, knnStep, liveEntries, liveSlots,
    applyInsert, insertRow, insertChunks, deleteRow, encodeVec, encodeRaw, decodeEnc,
    decodeRaw, distQ, List.orderedInsert, distLe]

/-! ## The claims -/

/-- Claim C3: on the table of dimension 3 with metric l2 holding rows
(1,[0,0,0]), (2,[1,0,0]), (3,[2,0,0]), the KNN query with k = 2 at [0,0,0]
returns exactly [(1, 0), (2, 1)] in that order, and after deleting row 1 the
same query returns exactly [(2, 1), (3, 4)] (squared-L2 distances). -/
theorem claim_C3_end_to_end :
    knnQuery t3 [0, 0, 0] 2 = Except.ok [(1, 0), (2, 1)] ∧
      knnQuery (deleteRow t3 1) [0, 0, 0] 2 = Except.ok [(2, 1), (3, 4)] :=
  ⟨t3_query_eq, t3_query_deleted_eq⟩

/-- Claim C6: inserting a vector whose length differs from the table
dimension fails with the dimension-mismatch error, leaves the table state
literally unchanged (hence no other row or chunk is modified), and leaves
the row count unchanged. -/
theorem claim_C6_dimension_mismatch (t : Table) (r : ℤ) (v : List ℚ) (aux : String)
    (hv : v.length ≠ t.dim) :
    insertRow t r v aux = Except.error Err.dimensionMismatch ∧
      applyInsert t r v aux = t ∧ rowCount (applyInsert t r v aux) = rowCount t := by
  have h1 : insertRow t r v aux = Except.error Err.dimensionMismatch := by
    unfold insertRow
    rw [if_neg hv]
  have h2 : applyInsert t r v aux = t := by
    unfold applyInsert
    rw [h1]
  exact ⟨h1, h2, by rw [h2]⟩

theorem claim_C6_witness :
    ([(1 : ℚ), 2].length ≠ t0.dim) ∧
      (insertRow t0 9 [1, 2] "" = Except.error Err.dimensionMismatch ∧
        applyInsert t0 9 [1, 2] "" = t0 ∧
        rowCount (applyInsert t0 9 [1, 2] "") = rowCount t0) :=
  ⟨by decide, claim_C6_dimension_mismatch t0 9 [1, 2] "" (by decide)⟩

/-- Claim C7: a KNN query with requested result count k below one fails in
Planning with the invalid-argument error, and k-resolution never raises that
error for k at least one. -/
theorem claim_C7_invalid_k :
    ∀ k : ℤ,
      (resolveK k = Except.error Err.invalidArgument ↔ k < 1) ∧
      (∀ (t : Table) (q : List ℚ), k < 1 → knnQuery t q k = Except.error Err.invalidArgument) ∧
      (1 ≤ k → resolveK k = Except.ok k.toNat) := by
  intro k
  refine ⟨?_, ?_, ?_⟩
  · unfold resolveK
    by_cases hk : k < 1
    · simp [hk]
    · simp [hk]
  · intro t q hk
    unfold knnQuery resolveK
    simp [hk]
  · intro hk
    unfold resolveK
    rw [if_neg (by omega)]

theorem claim_C7_witness :
    knnQuery t0 [] 0 = Except.error Err.invalidArgument :=
  (claim_C7_invalid_k 0).2.1 t0 [] (by decide)

/-- Claim C8: compacting a chunk preserves the list of live
(row_id, vector, aux) tuples exactly, whatever the prior pattern of inserts
and deletes that produced the chunk, and every remaining slot of the
compacted chunk is live (live slots repacked to the front). -/
theorem claim_C8_compact_preserves_live :
    ∀ c : Chunk, liveTuplesC (compactChunk c) = liveTuplesC c ∧
      (compactChunk c).slots.all (fun s => s.valid) = true := by
  intro c
  constructor
  · unfold liveTuplesC compactChunk
    simp [List.filter_filter]
  · simp only [compactChunk, List.all_eq_true]
    intro s hs
    exact (List.mem_filter.mp hs).2

/-- Claim C9: insert of row r, then delete of r, then insert of r again
leaves the table with exactly one live slot holding row identifier r across
all chunks (so no duplicate live entries for r). -/
theorem claim_C9_reinsert_unique (t : Table) (r : ℤ) (v1 v2 : List ℚ) (a1 a2 : String)
    (_h1 : v1.length = t.dim) (h2 : v2.length = t.dim) :
    countLive (applyInsert (deleteRow (applyInsert t r v1 a1) r) r v2 a2) r = 1 := by
  have hd2 : v2.length = (deleteRow (applyInsert t r v1 a1) r).dim := by
    rw [dim_deleteRow, dim_applyInsert]
    exact h2
  rw [countLive_applyInsert _ _ _ _ hd2, countLive_deleteRow]

theorem claim_C9_witness :
    ([(0 : ℚ), 0, 0].length = t0.dim) ∧
      countLive (applyInsert (deleteRow (applyInsert t0 7 [0, 0, 0] "") 7) 7 [0, 0, 0] "") 7
        = 1 :=
  ⟨by decide, claim_C9_reinsert_unique t0 7 [0, 0, 0] [0, 0, 0] "" "" (by decide) (by decide)⟩

/-- Claim C10: the build script terminates normally exactly when
CARGO_MANIFEST_DIR is set (it panics otherwise before invoking the
compiler), and when the variable holds P it compiles exactly the single C
source file P/../../sqlite-vec.c with exactly the include directories
P/../.. and P/../../vendor into a library named sqlite_vec0. -/
theorem claim_C10_build_script :
    (∀ env : String → Option String,
      (buildMain env).isSome = (env ("CARGO_MANIFEST_DIR")).isSome) ∧
    (∀ env : String → Option String,
      env ("CARGO_MANIFEST_DIR") = none → buildMain env = none) ∧
    (∀ (env : String → Option String) (p : String), env ("CARGO_MANIFEST_DIR") = some p →
      buildMain env = some
        { files := [p ++ ("/../../sqlite-vec.c")]
          includes := [p ++ ("/../.."), p ++ ("/../../vendor")]
          libName := ("sqlite_vec0") }) := by
  refine ⟨?_, ?_, ?_⟩
  · intro env
    unfold buildMain
    cases henv : env ("CARGO_MANIFEST_DIR") <;> simp
  · intro env h
    unfold buildMain
    rw [h]
  · intro env p h
    unfold buildMain
    rw [h]
    simp [pathJoin, String.append_assoc]

theorem claim_C10_witness :
    ((fun v => if v = ("CARGO_MANIFEST_DIR") then some ("/repo") else none)
        ("CARGO_MANIFEST_DIR") = some ("/repo")) ∧
      buildMain (fun v => if v = ("CARGO_MANIFEST_DIR") then some ("/repo") else none)
        = some
          { files := [("/repo") ++ ("/../../sqlite-vec.c")]
            includes := [("/repo") ++ ("/../.."), ("/repo") ++ ("/../../vendor")]
            libName := ("sqlite_vec0") } :=
  ⟨by simp, claim_C10_build_script.2.2 _ ("/repo") (by simp)⟩

/-- Claim C2 counterexample: under int8 quantization with scale 1 and offset
0, the component 1000 is clamped to 127, so the round trip differs from the
original by 873, far more than one quantization step; the unrestricted
per-component bound of the claim is false. -/
theorem claim_C2_counterexample :
    decodeInt8 1 0 (encodeInt8 1 0 [1000]) = [127] ∧ ¬ (|(127 : ℚ) - 1000| ≤ 1) := by
  constructor
  · unfold encodeInt8 decodeInt8 clampInt8
    have hr : round (((1000 : ℚ) - 0) / 1) = 1000 := by
      norm_num [round_eq, Int.floor_eq_iff]
    norm_num [hr, min_def, max_def]
  · rw [abs_of_nonpos (by norm_num : (127 : ℚ) - 1000 ≤ 0)]
    norm_num

/-- Claim C2 (amended): raw decoding of a raw encoding is the identity; for
int8 quantization with positive scale, every component within the
representable range (|x - offset| at most 127 times the scale) is recovered
to within one quantization step (at most the scale); for binary quantization
every decoded component is of absolute value one and carries the sign of the
original nonzero component.  The amendment restricts the int8 bound to
components inside the clamping range, which the counterexample above forces. -/
theorem claim_C2_quantization :
    (∀ v : List ℚ, decodeRaw (encodeRaw v) = v) ∧
    (∀ (s o : ℚ) (v : List ℚ), 0 < s →
      List.Forall₂ (fun d x => |x - o| ≤ 127 * s → |d - x| ≤ s)
        (decodeInt8 s o (encodeInt8 s o v)) v) ∧
    (∀ v : List ℚ,
      List.Forall₂ (fun d x => |d| = 1 ∧ (0 < x → d = 1) ∧ (x < 0 → d = -1))
        (decodeBit (encodeBit v)) v) := by
  refine ⟨fun v => rfl, ?_, ?_⟩
  · intro s o v hs
    unfold decodeInt8 encodeInt8
    rw [List.map_map, List.forall₂_map_left_iff, List.forall₂_same]
    intro x _ hrange
    exact int8_component_bound x hs hrange
  · intro v
    unfold decodeBit encodeBit
    rw [List.map_map, List.forall₂_map_left_iff, List.forall₂_same]
    intro x _
    by_cases h0 : 0 ≤ x
    · have hnx : ¬ x < 0 := not_lt.mpr h0
      simp [h0, hnx]
    · have hx : ¬ 0 < x := fun hc => h0 hc.le
      simp [h0, hx]

theorem claim_C2_witness :
    (0 : ℚ) < 1 ∧
      List.Forall₂ (fun d x => |x - 0| ≤ 127 * 1 → |d - x| ≤ 1)
        (decodeInt8 1 0 (encodeInt8 1 0 [(5 : ℚ) / 2])) [(5 : ℚ) / 2] :=
  ⟨by norm_num, claim_C2_quantization.2.1 1 0 [(5 : ℚ) / 2] (by norm_num)⟩

/-- Claim C4 counterexample: with a full heap of one entry at distance 1 for
row 5, the candidate at equal distance 1 for the lower row 3 is admitted
(it replaces the entry), although the heap is full and its distance is not
strictly less than the heap maximum distance; the claim's admission
condition, read on distance alone, is therefore false in the presence of
the tie-break. -/
theorem claim_C4_counterexample :
    ((1 : ℚ), (3 : ℤ)) ∈ knnStep 1 [((1 : ℚ), (5 : ℤ))] ((1 : ℚ), (3 : ℤ)) ∧
      ¬ (([((1 : ℚ), (5 : ℤ))] : List (ℚ × ℤ)).length < 1 ∨ (1 : ℚ) < (1 : ℚ)) := by
  constructor
  · decide
  · decide

/-- Claim C4 (amended): a candidate is admitted to the bounded top-k heap
if and only if the heap holds fewer than k entries or the candidate
strictly precedes the heap's current maximum in the ranking order
(strictly smaller distance, or equal distance and strictly lower row
identifier); consequently the returned ranking is identical for every scan
order over the same candidates.  The amendment replaces the distance-only
strict comparison by the (distance, row_id) comparison, which the
counterexample above forces and which the claim's own tie-break and
scan-order-independence assert. -/
theorem claim_C4_admission :
    (∀ (k : ℕ) (h : List (ℚ × ℤ)) (c : ℚ × ℤ), List.Sorted distLe h → h.length ≤ k →
        c ∉ h → 0 < k →
        (c ∈ knnStep k h c ↔ h.length < k ∨ ∃ m, heapMax h = some m ∧ distLt c m)) ∧
    (∀ (k : ℕ) (l1 l2 : List (ℚ × ℤ)), l1.Perm l2 → topKFold k l1 = topKFold k l2) :=
  ⟨fun k h c => mem_knnStep_iff h k c, fun k _ _ hp => topKFold_perm k hp⟩

theorem claim_C4_witness :
    (List.Sorted distLe [((1 : ℚ), (1 : ℤ))] ∧
        ([((1 : ℚ), (1 : ℤ))] : List (ℚ × ℤ)).length ≤ 2 ∧
        ((2 : ℚ), (2 : ℤ)) ∉ [((1 : ℚ), (1 : ℤ))] ∧ 0 < 2 ∧
        (((2 : ℚ), (2 : ℤ)) ∈ knnStep 2 [((1 : ℚ), (1 : ℤ))] ((2 : ℚ), (2 : ℤ)) ↔
          ([((1 : ℚ), (1 : ℤ))] : List (ℚ × ℤ)).length < 2 ∨
            ∃ m, heapMax [((1 : ℚ), (1 : ℤ))] = some m ∧ distLt ((2 : ℚ), (2 : ℤ)) m)) ∧
      topKFold 1 [((1 : ℚ), (1 : ℤ)), ((2 : ℚ), (2 : ℤ))]
        = topKFold 1 [((2 : ℚ), (2 : ℤ)), ((1 : ℚ), (1 : ℤ))] := by
  have hs : List.Sorted distLe [((1 : ℚ), (1 : ℤ))] := List.sorted_singleton _
  have hlen : ([((1 : ℚ), (1 : ℤ))] : List (ℚ × ℤ)).length ≤ 2 := by decide
  have hmem : ((2 : ℚ), (2 : ℤ)) ∉ [((1 : ℚ), (1 : ℤ))] := by decide
  exact ⟨⟨hs, hlen, hmem, by decide,
      claim_C4_admission.1 2 _ _ hs hlen hmem (by decide)⟩,
    claim_C4_admission.2 1 _ _ (List.Perm.swap _ _ _)⟩

/-- Claim C5: cosine distance is 1 - (a.b)/(norm a * norm b) whenever both
norms are nonzero, fails with the degenerate-vector error exactly when
either norm is zero, and inside a KNN scan such a failure drops only that
single comparison from the candidate stream and never aborts the rest of
the scan. -/
theorem claim_C5_cosine_spec :
    (∀ a b : List ℚ, (cosineDistance a b = Except.error Err.degenerateVector ↔
        normQ a = 0 ∨ normQ b = 0)) ∧
    (∀ a b : List ℚ, normQ a ≠ 0 → normQ b ≠ 0 →
        cosineDistance a b
          = Except.ok (1 - ((dot a b : ℚ) : ℝ) / (normQ a * normQ b))) ∧
    (∀ (q : List ℚ) (pre post : List (ℤ × List ℚ)) (x : ℤ × List ℚ),
        cosineDistance q x.2 = Except.error Err.degenerateVector →
        scanCands (cosineDistance q) (pre ++ x :: post)
          = scanCands (cosineDistance q) (pre ++ post)) := by
  refine ⟨?_, ?_, ?_⟩
  · intro a b
    unfold cosineDistance
    by_cases hd : sumSq a = 0 ∨ sumSq b = 0
    · rw [if_pos hd]
      simp [normQ_eq_zero_iff, hd]
    · rw [if_neg hd]
      simp [normQ_eq_zero_iff, hd]
  · intro a b ha hb
    have hd : ¬ (sumSq a = 0 ∨ sumSq b = 0) := by
      rintro (h | h)
      · exact ha ((normQ_eq_zero_iff a).mpr h)
      · exact hb ((normQ_eq_zero_iff b).mpr h)
    unfold cosineDistance
    rw [if_neg hd]
  · intro q pre post x hx
    unfold scanCands
    rw [List.filterMap_append, List.filterMap_append]
    congr 1
    rw [List.filterMap_cons]
    rw [hx]
    rfl

theorem claim_C5_witness :
    (normQ [(3 : ℚ), 4] ≠ 0 ∧
        cosineDistance [(3 : ℚ), 4] [(3 : ℚ), 4]
          = Except.ok (1 - ((dot [(3 : ℚ), 4] [(3 : ℚ), 4] : ℚ) : ℝ)
              / (normQ [(3 : ℚ), 4] * normQ [(3 : ℚ), 4]))) ∧
      (normQ [(0 : ℚ)] = 0 ∧
        cosineDistance [(0 : ℚ)] [(1 : ℚ)] = Except.error Err.degenerateVector) := by
  have h34 : sumSq [(3 : ℚ), 4] = 25 := by norm_num [sumSq]
  have hn : normQ [(3 : ℚ), 4] ≠ 0 := by
    rw [Ne, normQ_eq_zero_iff, h34]
    norm_num
  have h0 : normQ [(0 : ℚ)] = 0 := by
    rw [normQ_eq_zero_iff]
    norm_num [sumSq]
  exact ⟨⟨hn, claim_C5_cosine_spec.2.1 _ _ hn hn⟩,
    ⟨h0, (claim_C5_cosine_spec.1 _ _).mpr (Or.inl h0)⟩⟩

/-- Claim C1: for every table whose live rows carry pairwise distinct row
identifiers and every query vector with a valid k for which the executor
succeeds, the KNN executor returns at most k results, sorted strictly
ascending by the pair (distance, row_id), and each returned distance equals
exactly the direct recomputation distance(metric, q, decode(stored_vector))
of a live stored row, hence lies within the quantization error bound of the
table's encoding. -/
theorem claim_C1_knn_results (t : Table) (q : List ℚ) (k : ℤ) (res : List (ℤ × ℚ))
    (hnodup : (liveRowIds t).Nodup) (hres : knnQuery t q k = Except.ok res) :
    res.length ≤ k.toNat ∧
      res.Pairwise (fun x y => x.2 < y.2 ∨ (x.2 = y.2 ∧ x.1 < y.1)) ∧
      ∀ pr ∈ res, ∃ sl ∈ liveSlots t, sl.rowId = pr.1 ∧
        pr.2 = distQ t.metric q (decodeEnc sl.vec) := by
  obtain ⟨_, hq, hres2⟩ := knnQuery_ok hres
  subst hres2
  have hperm := List.perm_insertionSort distLe (liveEntries t q)
  have hsorted := List.sorted_insertionSort distLe (liveEntries t q)
  have htopk := topKFold_eq_take_sort k.toNat (liveEntries t q)
  refine ⟨?_, ?_, ?_⟩
  · rw [List.length_map, htopk]
    exact List.length_take_le _ _
  · rw [List.pairwise_map, htopk]
    have h1 : (liveEntries t q).Pairwise (fun a b => a.2 ≠ b.2) :=
      liveEntries_pairwise_snd_ne q hnodup
    have h2 : ((liveEntries t q).insertionSort distLe).Pairwise (fun a b => a.2 ≠ b.2) :=
      (hperm.pairwise_iff (fun hab => Ne.symm hab)).mpr h1
    have hpw := pairwise_distLt_of_sorted hsorted h2
    have h3 := List.Pairwise.sublist (List.take_sublist k.toNat _) hpw
    exact h3.imp (fun hab => hab)
  · intro pr hpr
    obtain ⟨e, he, rfl⟩ := List.mem_map.mp hpr
    rw [htopk] at he
    have h1 : e ∈ (liveEntries t q).insertionSort distLe :=
      (List.take_sublist _ _).subset he
    have h2 : e ∈ liveEntries t q := hperm.subset h1
    obtain ⟨sl, hsl, hesl⟩ := List.mem_map.mp h2
    refine ⟨sl, hsl, ?_, ?_⟩
    · rw [← hesl]
    · rw [← hesl]

theorem claim_C1_witness :
    (liveRowIds t3).Nodup ∧
      ([((1 : ℤ), (0 : ℚ)), (2, 1)].length ≤ (2 : ℤ).toNat ∧
        [((1 : ℤ), (0 : ℚ)), (2, 1)].Pairwise
          (fun x y => x.2 < y.2 ∨ (x.2 = y.2 ∧ x.1 < y.1)) ∧
        ∀ pr ∈ [((1 : ℤ), (0 : ℚ)), (2, 1)], ∃ sl ∈ liveSlots t3, sl.rowId = pr.1 ∧
          pr.2 = distQ t3.metric [0, 0, 0] (decodeEnc sl.vec)) := by
  have hn : (liveRowIds t3).Nodup := by decide
  exact ⟨hn, claim_C1_knn_results t3 [0, 0, 0] 2 _ hn t3_query_eq⟩

end SV
